import Mathlib

/-!
Shallow embedding of the Argon2id password-hashing module of
`luxcarpets-go` (file `internal/.../password.go`, package `service`):
password policy validation, hash encoding/decoding in the
`$argon2id$v=19$m=..,t=..,p=..$<salt>$<key>` text format, and
constant-time verification.

Modelling conventions:
* Go byte slices are `List Nat` with every element `< 256` stated as a
  hypothesis where it matters.
* Go strings are `List Char` (sequences of Unicode scalar values); the
  Go `len` of a string is the total UTF-8 byte size `utf8Len`.
* `uint32`/`uint8` fields are `Nat` with explicit `< 2 ^ 32` / `< 2 ^ 8`
  bounds in hypotheses.
* The Go `unicode` package classifiers and the external
  `golang.org/x/crypto/argon2` key-derivation function are not part of
  this repository; they are abstracted as parameters (`GoUnicode`,
  `idKey`) with concrete instances supplied for evaluation.
-/

namespace LuxCarpets

/-- Policy errors of `validatePassword` (the `ErrPassword...` values). -/
inductive PasswordError where
  | tooLong
  | tooShort
  | noUpper
  | noLower
  | noDigit
  | noSpecial
deriving DecidableEq, Repr

/-- Decode errors of `decodeHash`, one constructor per distinct error
return in the Go source, in source order. -/
inductive DecodeError where
  | badFieldCount
  | unsupportedAlgorithm
  | versionParseFailed
  | versionMismatch
  | paramsParseFailed
  | zeroParameter
  | saltDecodeFailed
  | emptySalt
  | hashDecodeFailed
  | emptyHash
deriving DecidableEq, Repr

/-- Errors of `comparePasswordAndHash`: either a policy error from
`validatePassword` or a wrapped error from `decodeHash`
(`failed to decode hash: %w`). -/
inductive CompareError where
  | policy (e : PasswordError)
  | decode (e : DecodeError)
deriving DecidableEq, Repr

deriving instance DecidableEq for Except

/-- The Go constant `maxPasswordLength = 72` (bytes). -/
def maxPasswordLength : Nat := 72

/-- The Go constant `minPasswordLength = 8` (bytes). -/
def minPasswordLength : Nat := 8

/-- The Go constant `argon2.Version = 19`. -/
def argon2Version : Nat := 19

/-- The `params` struct: Argon2id cost parameters and byte lengths.
The Go field types are `uint32` for `memory`, `iterations`,
`saltLength`, `keyLength` and `uint8` for `parallelism`. -/
structure params where
  memory      : Nat
  iterations  : Nat
  parallelism : Nat
  saltLength  : Nat
  keyLength   : Nat
deriving DecidableEq, Repr

/-- The Go package-level `defaultParams` value. -/
def defaultParams : params :=
  { memory      := 64 * 1024
    iterations  := 3
    parallelism := 2
    saltLength  := 16
    keyLength   := 32 }

/-- Abstraction of the five Go `unicode` package classifiers used by
`validatePassword` (`IsUpper`, `IsLower`, `IsDigit`, `IsPunct`,
`IsSymbol`); that package is external to this repository, so the
validator is parameterised by it. -/
structure GoUnicode where
  isUpper  : Char → Bool
  isLower  : Char → Bool
  isDigit  : Char → Bool
  isPunct  : Char → Bool
  isSymbol : Char → Bool

/-- Concrete instance of `GoUnicode` for evaluation: the restriction of
the Go `unicode` package's category tables to the Basic Latin and
Cyrillic blocks (characters outside those blocks are classified into no
class by this instance). -/
def goUnicodeTable : GoUnicode where
  isUpper c :=
    (65 ≤ c.toNat && c.toNat ≤ 90) ||
    (0x410 ≤ c.toNat && c.toNat ≤ 0x42F) || c.toNat == 0x401
  isLower c :=
    (97 ≤ c.toNat && c.toNat ≤ 122) ||
    (0x430 ≤ c.toNat && c.toNat ≤ 0x44F) || c.toNat == 0x451
  isDigit c := 48 ≤ c.toNat && c.toNat ≤ 57
  isPunct c :=
    c ∈ ['!', '"', '#', '%', '&', '(', ')', '*', ',', '-', '.', '/',
         ':', ';', '?', '@', '[', '\\', ']', '_', '\x7b', '\x7d']
  isSymbol c := c ∈ ['$', '+', '<', '=', '>', '^', '|', '~']

/-- The UTF-8 byte size of a string given as a character list: the Go
`len(password)` of the string. -/
def utf8Len (s : List Char) : Nat :=
  (s.map Char.utf8Size).sum

/-- One step of the `switch` in `validatePassword`'s character loop:
each character is classified by the first matching `case`, updating the
`(hasUpper, hasLower, hasDigit, hasSpecial)` flags. -/
def classStep (u : GoUnicode) (acc : Bool × Bool × Bool × Bool) (c : Char) :
    Bool × Bool × Bool × Bool :=
  let (hu, hl, hd, hs) := acc
  if u.isUpper c then (true, hl, hd, hs)
  else if u.isLower c then (hu, true, hd, hs)
  else if u.isDigit c then (hu, hl, true, hs)
  else if u.isPunct c || u.isSymbol c then (hu, hl, hd, true)
  else (hu, hl, hd, hs)

/-- The Go `validatePassword`: length checks on the byte length, then
the character-class flags computed by the range loop, then the class
checks in order. Returns `none` for a valid password, otherwise the
first violation found. -/
def validatePassword (u : GoUnicode) (password : List Char) :
    Option PasswordError :=
  if utf8Len password > maxPasswordLength then some .tooLong
  else if utf8Len password < minPasswordLength then some .tooShort
  else
    let flags := password.foldl (classStep u) (false, false, false, false)
    if !flags.1 then some .noUpper
    else if !flags.2.1 then some .noLower
    else if !flags.2.2.1 then some .noDigit
    else if !flags.2.2.2 then some .noSpecial
    else none

/-- Go `subtle.ConstantTimeCompare`: `0` on length mismatch, otherwise
the OR-accumulation of bytewise XORs compared against zero, yielding
`1` exactly on equal contents. -/
def constantTimeCompare (x y : List Nat) : Nat :=
  if x.length ≠ y.length then 0
  else if (List.zipWith (fun a b => a ^^^ b) x y).foldl (fun v d => v ||| d) 0 = 0
  then 1 else 0

theorem natOr_eq_zero_iff (a b : Nat) : a ||| b = 0 ↔ a = 0 ∧ b = 0 := by
  constructor
  · intro h
    constructor
    · apply Nat.eq_of_testBit_eq
      intro i
      have := congrArg (fun n => n.testBit i) h
      simp only [Nat.testBit_or, Nat.zero_testBit] at this
      simp [(Bool.or_eq_false_iff.mp this).1]
    · apply Nat.eq_of_testBit_eq
      intro i
      have := congrArg (fun n => n.testBit i) h
      simp only [Nat.testBit_or, Nat.zero_testBit] at this
      simp [(Bool.or_eq_false_iff.mp this).2]
  · rintro ⟨rfl, rfl⟩; rfl

theorem foldl_or_eq_zero_iff (l : List Nat) (a : Nat) :
    l.foldl (fun v d => v ||| d) a = 0 ↔ a = 0 ∧ ∀ z ∈ l, z = 0 := by
  induction l generalizing a with
  | nil => simp
  | cons b t ih =>
    simp only [List.foldl_cons, ih, natOr_eq_zero_iff, List.mem_cons]
    constructor
    · rintro ⟨⟨ha, hb⟩, ht⟩
      exact ⟨ha, fun z hz => hz.elim (fun h => h ▸ hb) (ht z)⟩
    · rintro ⟨ha, ht⟩
      exact ⟨⟨ha, ht b (Or.inl rfl)⟩, fun z hz => ht z (Or.inr hz)⟩

theorem constantTimeCompare_eq_one_iff (x y : List Nat) :
    constantTimeCompare x y = 1 ↔ x = y := by
  unfold constantTimeCompare
  by_cases hlen : x.length = y.length
  · simp only [hlen, ne_eq, not_true_eq_false, if_false]
    have hiff : (List.zipWith (fun a b => a ^^^ b) x y).foldl
        (fun v d => v ||| d) 0 = 0 ↔ x = y := by
      rw [foldl_or_eq_zero_iff]
      simp only [true_and]
      constructor
      · intro hall
        apply List.ext_getElem hlen
        intro i h1 h2
        have hmem : x[i] ^^^ y[i] = 0 := by
          apply hall
          rw [List.mem_iff_getElem]
          refine ⟨i, ?_, ?_⟩
          · simp only [List.length_zipWith]; omega
          · simp [List.getElem_zipWith]
        exact Nat.xor_eq_zero.mp hmem
      · rintro rfl z hz
        rw [List.mem_iff_getElem] at hz
        obtain ⟨i, hi, hz⟩ := hz
        simp only [List.getElem_zipWith, Nat.xor_self] at hz
        omega
    by_cases hf : (List.zipWith (fun a b => a ^^^ b) x y).foldl
        (fun v d => v ||| d) 0 = 0
    · rw [if_pos hf]
      exact ⟨fun _ => hiff.mp hf, fun _ => rfl⟩
    · simp only [hf, if_false]
      constructor
      · omega
      · intro hxy; exact absurd (hiff.mpr hxy) hf
  · simp only [ne_eq, hlen, not_false_eq_true, if_true]
    constructor
    · omega
    · intro h; exact absurd (congrArg List.length h) hlen

/-! ### Base64 (Go `encoding/base64` RawStdEncoding, strict mode) -/

/-- The standard base64 alphabet. -/
def base64Alphabet : List Char :=
  "ABCDEFGHIJKLMNOPQRSTUVWXYZabcdefghijklmnopqrstuvwxyz0123456789+/".toList

/-- The encoding map: sextet value to alphabet character. -/
def b64Char (n : Nat) : Char :=
  base64Alphabet.getD n 'A'

/-- The decoding map (`decodeMap` in Go): alphabet character to sextet
value, `none` for characters outside the alphabet. -/
def b64Val (c : Char) : Option Nat :=
  (base64Alphabet.indexOf? c).bind fun i => some i

/-- Go `base64.RawStdEncoding.EncodeToString` on a byte list: groups of
three bytes become four sextet characters; a trailing group of one or
two bytes becomes two or three characters (no padding). -/
def b64EncodeBytes : List Nat → List Char
  | [] => []
  | [b0] => [b64Char (b0 / 4), b64Char (b0 % 4 * 16)]
  | [b0, b1] =>
    [b64Char (b0 / 4), b64Char (b0 % 4 * 16 + b1 / 16), b64Char (b1 % 16 * 4)]
  | b0 :: b1 :: b2 :: rest =>
    b64Char (b0 / 4) :: b64Char (b0 % 4 * 16 + b1 / 16) ::
    b64Char (b1 % 16 * 4 + b2 / 64) :: b64Char (b2 % 64) :: b64EncodeBytes rest

/-- Sextet sequence to bytes, with Go's strict-mode checks: a single
trailing sextet is malformed; a trailing pair or triple must have its
unused low bits zero (`Strict()`). -/
def b64DecodeSextets : List Nat → Option (List Nat)
  | [] => some []
  | [_] => none
  | [s0, s1] => if s1 % 16 = 0 then some [s0 * 4 + s1 / 16] else none
  | [s0, s1, s2] =>
    if s2 % 4 = 0 then some [s0 * 4 + s1 / 16, s1 % 16 * 16 + s2 / 4]
    else none
  | s0 :: s1 :: s2 :: s3 :: rest =>
    (b64DecodeSextets rest).map fun bs =>
      (s0 * 4 + s1 / 16) :: (s1 % 16 * 16 + s2 / 4) :: (s2 % 4 * 64 + s3) :: bs

/-- Application of the decode map to every character, failing on the
first character outside the alphabet. -/
def b64Vals : List Char → Option (List Nat)
  | [] => some []
  | c :: cs => (b64Val c).bind fun v => (b64Vals cs).map fun vs => v :: vs

/-- Go `base64.RawStdEncoding.Strict().DecodeString` on a character
list: carriage returns and newlines are skipped wherever they occur,
any other non-alphabet character is an error, and the remaining sextets
are regrouped into bytes with the strict trailing-bit checks. -/
def b64DecodeChars (cs : List Char) : Option (List Nat) :=
  (b64Vals (cs.filter fun c => c ≠ '\r' ∧ c ≠ '\n')).bind b64DecodeSextets

example : b64DecodeChars "c2FsdA".toList = some [115, 97, 108, 116] := by decide
example : b64DecodeChars "aGFzaA".toList = some [104, 97, 115, 104] := by decide
example : b64EncodeBytes [115, 97, 108, 116] = "c2FsdA".toList := by decide

/-! ### Base64 round trip -/

theorem b64Char_clean : ∀ n, n < 64 →
    (b64Char n ≠ '\r' ∧ b64Char n ≠ '\n') := by decide

theorem b64Val_b64Char : ∀ n, n < 64 → b64Val (b64Char n) = some n := by decide

theorem b64Char_ne_dollar : ∀ n, n < 64 → b64Char n ≠ '$' := by decide

theorem b64EncodeBytes_mem :
    ∀ bs : List Nat, (∀ b ∈ bs, b < 256) →
      ∀ c ∈ b64EncodeBytes bs, ∃ n, n < 64 ∧ c = b64Char n := by
  intro bs
  induction bs using b64EncodeBytes.induct with
  | case1 => intro _ c hc; simp [b64EncodeBytes] at hc
  | case2 b0 =>
    intro h c hc
    have h0 : b0 < 256 := h b0 (by simp)
    simp only [b64EncodeBytes, List.mem_cons, List.not_mem_nil, or_false] at hc
    rcases hc with rfl | rfl
    · exact ⟨b0 / 4, by omega, rfl⟩
    · exact ⟨b0 % 4 * 16, by omega, rfl⟩
  | case3 b0 b1 =>
    intro h c hc
    have h0 : b0 < 256 := h b0 (by simp)
    have h1 : b1 < 256 := h b1 (by simp)
    simp only [b64EncodeBytes, List.mem_cons, List.not_mem_nil, or_false] at hc
    rcases hc with rfl | rfl | rfl
    · exact ⟨b0 / 4, by omega, rfl⟩
    · exact ⟨b0 % 4 * 16 + b1 / 16, by omega, rfl⟩
    · exact ⟨b1 % 16 * 4, by omega, rfl⟩
  | case4 b0 b1 b2 rest ih =>
    intro h c hc
    have h0 : b0 < 256 := h b0 (by simp)
    have h1 : b1 < 256 := h b1 (by simp)
    have h2 : b2 < 256 := h b2 (by simp)
    simp only [b64EncodeBytes, List.mem_cons] at hc
    rcases hc with rfl | rfl | rfl | rfl | hc
    · exact ⟨b0 / 4, by omega, rfl⟩
    · exact ⟨b0 % 4 * 16 + b1 / 16, by omega, rfl⟩
    · exact ⟨b1 % 16 * 4 + b2 / 64, by omega, rfl⟩
    · exact ⟨b2 % 64, by omega, rfl⟩
    · exact ih (fun b hb => h b (by simp [hb])) c hc

theorem filter_clean_of_alphabet (cs : List Char)
    (h : ∀ c ∈ cs, ∃ n, n < 64 ∧ c = b64Char n) :
    (cs.filter fun c => c ≠ '\r' ∧ c ≠ '\n') = cs := by
  rw [List.filter_eq_self]
  intro c hc
  obtain ⟨n, hn, rfl⟩ := h c hc
  have := b64Char_clean n hn
  simp [this.1, this.2]

theorem b64Vals_decode_encode :
    ∀ bs : List Nat, (∀ b ∈ bs, b < 256) →
      (b64Vals (b64EncodeBytes bs)).bind b64DecodeSextets = some bs := by
  intro bs
  induction bs using b64EncodeBytes.induct with
  | case1 => intro _; simp [b64EncodeBytes, b64Vals, b64DecodeSextets]
  | case2 b0 =>
    intro h
    have h0 : b0 < 256 := h b0 (by simp)
    have hv0 : b0 / 4 < 64 := by omega
    have hv1 : b0 % 4 * 16 < 64 := by omega
    simp only [b64EncodeBytes, b64Vals, b64Val_b64Char _ hv0,
      b64Val_b64Char _ hv1, Option.map_some', Option.some_bind,
      b64DecodeSextets]
    rw [if_pos (by omega)]
    simp only [Option.some.injEq, List.cons.injEq, and_true]
    omega
  | case3 b0 b1 =>
    intro h
    have h0 : b0 < 256 := h b0 (by simp)
    have h1 : b1 < 256 := h b1 (by simp)
    have hv0 : b0 / 4 < 64 := by omega
    have hv1 : b0 % 4 * 16 + b1 / 16 < 64 := by omega
    have hv2 : b1 % 16 * 4 < 64 := by omega
    simp only [b64EncodeBytes, b64Vals, b64Val_b64Char _ hv0,
      b64Val_b64Char _ hv1, b64Val_b64Char _ hv2, Option.map_some',
      Option.some_bind, b64DecodeSextets]
    rw [if_pos (by omega)]
    simp only [Option.some.injEq, List.cons.injEq, and_true]
    constructor
    · omega
    · omega
  | case4 b0 b1 b2 rest ih =>
    intro h
    have h0 : b0 < 256 := h b0 (by simp)
    have h1 : b1 < 256 := h b1 (by simp)
    have h2 : b2 < 256 := h b2 (by simp)
    have hrest : ∀ b ∈ rest, b < 256 := fun b hb => h b (by simp [hb])
    obtain ⟨sexts, hvals, hdec⟩ := Option.bind_eq_some.mp (ih hrest)
    have hv0 : b0 / 4 < 64 := by omega
    have hv1 : b0 % 4 * 16 + b1 / 16 < 64 := by omega
    have hv2 : b1 % 16 * 4 + b2 / 64 < 64 := by omega
    have hv3 : b2 % 64 < 64 := by omega
    simp only [b64EncodeBytes, b64Vals, b64Val_b64Char _ hv0,
      b64Val_b64Char _ hv1, b64Val_b64Char _ hv2, b64Val_b64Char _ hv3,
      hvals, Option.map_some', Option.some_bind, b64DecodeSextets, hdec]
    simp only [Option.some.injEq, List.cons.injEq]
    refine ⟨by omega, by omega, by omega, by trivial⟩

/-- Round trip of the Go base64 codec: decoding an encoded byte list
restores the bytes. -/
theorem b64_decode_encode (bs : List Nat) (h : ∀ b ∈ bs, b < 256) :
    b64DecodeChars (b64EncodeBytes bs) = some bs := by
  unfold b64DecodeChars
  rw [filter_clean_of_alphabet _ (b64EncodeBytes_mem bs h)]
  exact b64Vals_decode_encode bs h

/-! ### Go `strings.Split` on a single-character separator -/

/-- Go `strings.Split(s, sep)` for a one-character separator. -/
def goSplit (sep : Char) : List Char → List (List Char)
  | [] => [[]]
  | c :: cs =>
    match goSplit sep cs with
    | [] => [[c]]
    | f :: rest => if c = sep then [] :: f :: rest else (c :: f) :: rest

example : goSplit '$' "$ab$c".toList = [[], ['a', 'b'], ['c']] := by decide
example : goSplit '$' "".toList = [[]] := by decide

theorem goSplit_ne_nil (sep : Char) (s : List Char) : goSplit sep s ≠ [] := by
  cases s with
  | nil => simp [goSplit]
  | cons c cs =>
    simp only [goSplit]
    cases goSplit sep cs with
    | nil => simp
    | cons f rest =>
      by_cases h : c = sep <;> simp [h]

theorem goSplit_cons_sep (sep : Char) (s : List Char) :
    goSplit sep (sep :: s) = [] :: goSplit sep s := by
  simp only [goSplit]
  cases hs : goSplit sep s with
  | nil => exact absurd hs (goSplit_ne_nil sep s)
  | cons f rest => simp

theorem goSplit_cons_ne (sep c : Char) (s : List Char) (h : c ≠ sep) :
    goSplit sep (c :: s) =
      (c :: (goSplit sep s).headD []) :: (goSplit sep s).tail := by
  simp only [goSplit]
  cases hs : goSplit sep s with
  | nil => exact absurd hs (goSplit_ne_nil sep s)
  | cons f rest => simp [h]

/-- Splitting a string that starts with a separator-free chunk followed
by a separator yields that chunk as the first field. -/
theorem goSplit_append_sep (sep : Char) (xs ys : List Char)
    (hx : sep ∉ xs) :
    goSplit sep (xs ++ sep :: ys) = xs :: goSplit sep ys := by
  induction xs with
  | nil => simpa using goSplit_cons_sep sep ys
  | cons c cs ih =>
    have hc : c ≠ sep := fun h => hx (h ▸ List.mem_cons_self c cs)
    have hcs : sep ∉ cs := fun h => hx (List.mem_cons_of_mem c h)
    rw [List.cons_append, goSplit_cons_ne sep c _ hc, ih hcs]
    simp

/-- Splitting a separator-free string yields that single field. -/
theorem goSplit_no_sep (sep : Char) (xs : List Char) (hx : sep ∉ xs) :
    goSplit sep xs = [xs] := by
  induction xs with
  | nil => rfl
  | cons c cs ih =>
    have hc : c ≠ sep := fun h => hx (h ▸ List.mem_cons_self c cs)
    have hcs : sep ∉ cs := fun h => hx (List.mem_cons_of_mem c h)
    rw [goSplit_cons_ne sep c _ hc, ih hcs]
    simp

/-- No field produced by `goSplit` contains the separator. -/
theorem goSplit_not_mem (sep : Char) (s : List Char) :
    ∀ f ∈ goSplit sep s, sep ∉ f := by
  induction s with
  | nil => intro f hf; simp [goSplit] at hf; simp [hf]
  | cons c cs ih =>
    intro f hf
    rcases hs : goSplit sep cs with _ | ⟨g, rest⟩
    · exact absurd hs (goSplit_ne_nil sep cs)
    · rw [goSplit] at hf
      rw [hs] at hf
      by_cases hc : c = sep
      · simp only [hc, if_true] at hf
        rcases List.mem_cons.mp hf with rfl | hf2
        · simp
        · exact ih f (hs ▸ hf2)
      · simp only [hc, if_false] at hf
        rcases List.mem_cons.mp hf with rfl | hf2
        · intro hmem
          rcases List.mem_cons.mp hmem with rfl | hmem2
          · exact hc rfl
          · exact ih g (hs ▸ List.mem_cons_self g rest) hmem2
        · exact ih f (hs ▸ List.mem_cons_of_mem g hf2)

theorem intercalate_one (sep f : List Char) : List.intercalate sep [f] = f := by
  simp [List.intercalate]

theorem intercalate_cons2 (s f g : List Char) (rs : List (List Char)) :
    List.intercalate s (f :: g :: rs) = f ++ s ++ List.intercalate s (g :: rs) := by
  simp [List.intercalate, List.intersperse]

/-- Joining separator-free fields with the separator and splitting
again restores the fields. -/
theorem goSplit_intercalate (sep : Char) (fields : List (List Char))
    (h : ∀ f ∈ fields, sep ∉ f) (hne : fields ≠ []) :
    goSplit sep (List.intercalate [sep] fields) = fields := by
  induction fields with
  | nil => exact absurd rfl hne
  | cons f rest ih =>
    cases rest with
    | nil =>
      rw [intercalate_one]
      exact goSplit_no_sep sep f (h f (List.mem_cons_self f []))
    | cons g rs =>
      rw [intercalate_cons2]
      have harr : f ++ [sep] ++ List.intercalate [sep] (g :: rs) =
          f ++ sep :: List.intercalate [sep] (g :: rs) := by
        simp
      rw [harr, goSplit_append_sep sep f _ (h f (List.mem_cons_self f _))]
      rw [ih (fun x hx => h x (List.mem_cons_of_mem f hx)) (by simp)]

/-! ### Decimal formatting and `fmt.Sscanf` number scanning -/

/-- The character of a decimal digit. -/
def decDigitChar (d : Nat) : Char := Char.ofNat (48 + d)

/-- Fuel-driven helper for the decimal representation; the fuel only
makes the recursion structural (see `natToDecAux_congr`), it never runs
out when it starts above the number. -/
def natToDecAux : Nat → Nat → List Char
  | 0, _ => []
  | fuel + 1, n =>
    if n < 10 then [decDigitChar n]
    else natToDecAux fuel (n / 10) ++ [decDigitChar (n % 10)]

/-- Decimal representation of a natural number, as printed by
`fmt.Sprintf` `%d` for unsigned values. -/
def natToDec (n : Nat) : List Char := natToDecAux (n + 1) n

theorem natToDecAux_congr (n : Nat) :
    ∀ f1 f2, n < f1 → n < f2 → natToDecAux f1 n = natToDecAux f2 n := by
  induction n using Nat.strong_induction_on with
  | _ n ih =>
    intro f1 f2 h1 h2
    match f1, f2 with
    | g1 + 1, g2 + 1 =>
      simp only [natToDecAux]
      by_cases hn : n < 10
      · simp [hn]
      · simp only [hn, if_false]
        rw [ih (n / 10) (Nat.div_lt_self (by omega) (by omega)) g1 g2
          (by omega) (by omega)]

/-- The recursion equation of `natToDec`. -/
theorem natToDec_eq (n : Nat) :
    natToDec n =
      if n < 10 then [decDigitChar n]
      else natToDec (n / 10) ++ [decDigitChar (n % 10)] := by
  show natToDecAux (n + 1) n = _
  rw [natToDecAux]
  by_cases hn : n < 10
  · simp [hn]
  · simp only [hn, if_false]
    congr 1
    exact natToDecAux_congr (n / 10) n (n / 10 + 1) (by omega) (by omega)

/-- Numeric value of a list of decimal digit characters. -/
def decValue (ds : List Char) : Nat :=
  ds.foldl (fun a c => a * 10 + (c.toNat - 48)) 0

/-- The whitespace test of the `fmt` scanner (its `space` range table). -/
def isGoSpace (c : Char) : Bool :=
  (0x9 ≤ c.toNat && c.toNat ≤ 0xD) || c.toNat == 0x20 || c.toNat == 0x85 ||
  c.toNat == 0xA0 || c.toNat == 0x1680 ||
  (0x2000 ≤ c.toNat && c.toNat ≤ 0x200A) || c.toNat == 0x2028 ||
  c.toNat == 0x2029 || c.toNat == 0x202F || c.toNat == 0x205F ||
  c.toNat == 0x3000

/-- The `fmt` scanner's `SkipSpace` with `nlIsSpace = false` (the
`Sscanf` setting): a newline in the input is an error, any other
whitespace rune (including a bare carriage return) is skipped. -/
def scanSkipSpace : List Char → Option (List Char)
  | [] => some []
  | c :: cs =>
    if c = '\n' then none
    else if isGoSpace c then scanSkipSpace cs
    else some (c :: cs)

/-- The `fmt` scanner's handling of a `%d` verb for a `uint<bits>`
argument: skip leading whitespace, read a maximal nonempty run of
decimal digits, and range-check the value against the bit size.
Returns the value and the unconsumed input. -/
def parseGoUint (bits : Nat) (s : List Char) : Option (Nat × List Char) :=
  (scanSkipSpace s).bind fun t =>
    if t.takeWhile Char.isDigit = [] then none
    else if decValue (t.takeWhile Char.isDigit) < 2 ^ bits then
      some (decValue (t.takeWhile Char.isDigit), t.dropWhile Char.isDigit)
    else none

/-- The `fmt` scanner's handling of a `%d` verb for an `int` (64-bit)
argument: skip leading whitespace, accept one optional sign, read a
maximal nonempty digit run, and range-check against `int64`. -/
def parseGoInt (s : List Char) : Option (Int × List Char) :=
  (scanSkipSpace s).bind fun t =>
    match t with
    | '-' :: t2 =>
      if t2.takeWhile Char.isDigit = [] then none
      else if decValue (t2.takeWhile Char.isDigit) ≤ 2 ^ 63 then
        some (-(decValue (t2.takeWhile Char.isDigit) : Int),
          t2.dropWhile Char.isDigit)
      else none
    | '+' :: t2 =>
      if t2.takeWhile Char.isDigit = [] then none
      else if decValue (t2.takeWhile Char.isDigit) < 2 ^ 63 then
        some ((decValue (t2.takeWhile Char.isDigit) : Int),
          t2.dropWhile Char.isDigit)
      else none
    | _ =>
      if t.takeWhile Char.isDigit = [] then none
      else if decValue (t.takeWhile Char.isDigit) < 2 ^ 63 then
        some ((decValue (t.takeWhile Char.isDigit) : Int),
          t.dropWhile Char.isDigit)
      else none

/-- Go `fmt.Sscanf(field, "v=%d", &version)`: the literal characters
`v=` must match exactly, then an `int` is scanned; input left over
after the format is not an error. -/
def parseVersionField (s : List Char) : Option Int :=
  match s with
  | 'v' :: '=' :: rest => (parseGoInt rest).map Prod.fst
  | _ => none

/-- Go `fmt.Sscanf(field, "m=%d,t=%d,p=%d", &m, &t, &p)` with `m`, `t`
of type `uint32` and `p` of type `uint8`: literals match exactly, the
three numbers are scanned in order. -/
def parseParamsField (s : List Char) : Option (Nat × Nat × Nat) :=
  match s with
  | 'm' :: '=' :: r1 =>
    (parseGoUint 32 r1).bind fun mt =>
      match mt.2 with
      | ',' :: 't' :: '=' :: r3 =>
        (parseGoUint 32 r3).bind fun tt =>
          match tt.2 with
          | ',' :: 'p' :: '=' :: r5 =>
            (parseGoUint 8 r5).map fun pt => (mt.1, tt.1, pt.1)
          | _ => none
      | _ => none
  | _ => none

/-! ### Properties of the decimal scanner -/

theorem decDigitChar_toNat : ∀ d, d < 10 → (decDigitChar d).toNat = 48 + d := by
  decide

theorem decDigitChar_isDigit : ∀ d, d < 10 → (decDigitChar d).isDigit = true := by
  decide

theorem natToDec_ne_nil (n : Nat) : natToDec n ≠ [] := by
  rw [natToDec_eq]
  by_cases h : n < 10 <;> simp [h]

theorem natToDec_digits (n : Nat) : ∀ c ∈ natToDec n, c.isDigit = true := by
  induction n using Nat.strong_induction_on with
  | _ n ih =>
    intro c hc
    rw [natToDec_eq] at hc
    by_cases h : n < 10
    · rw [if_pos h] at hc
      simp only [List.mem_singleton] at hc
      exact hc ▸ decDigitChar_isDigit n h
    · rw [if_neg h] at hc
      rcases List.mem_append.mp hc with hc | hc
      · exact ih (n / 10) (Nat.div_lt_self (by omega) (by omega)) c hc
      · simp only [List.mem_singleton] at hc
        exact hc ▸ decDigitChar_isDigit (n % 10) (Nat.mod_lt n (by omega))

theorem decValue_append_digit (xs : List Char) (c : Char) :
    decValue (xs ++ [c]) = decValue xs * 10 + (c.toNat - 48) := by
  simp [decValue, List.foldl_append]

theorem decValue_natToDec (n : Nat) : decValue (natToDec n) = n := by
  induction n using Nat.strong_induction_on with
  | _ n ih =>
    rw [natToDec_eq]
    by_cases h : n < 10
    · rw [if_pos h]
      simp [decValue, decDigitChar_toNat n h]
    · rw [if_neg h, decValue_append_digit,
        ih (n / 10) (Nat.div_lt_self (by omega) (by omega)),
        decDigitChar_toNat (n % 10) (Nat.mod_lt n (by omega))]
      omega

theorem isDigit_iff_toNat (c : Char) :
    c.isDigit = true ↔ 48 ≤ c.toNat ∧ c.toNat ≤ 57 := by
  simp only [Char.isDigit, Bool.and_eq_true, decide_eq_true_eq]
  constructor
  · intro ⟨h1, h2⟩
    exact ⟨h1, h2⟩
  · intro ⟨h1, h2⟩
    exact ⟨h1, h2⟩

theorem scanSkipSpace_digit (c : Char) (cs : List Char)
    (h : c.isDigit = true) : scanSkipSpace (c :: cs) = some (c :: cs) := by
  obtain ⟨h1, h2⟩ := (isDigit_iff_toNat c).mp h
  have hnl : c ≠ '\n' := by
    intro hc
    subst hc
    simp at h1
  have hsp : isGoSpace c = false := by
    simp only [isGoSpace, Bool.or_eq_false_iff, Bool.and_eq_false_iff,
      decide_eq_false_iff_not, not_le, beq_eq_false_iff_ne, ne_eq]
    omega
  rw [scanSkipSpace, if_neg hnl, hsp]
  simp

theorem takeWhile_append_of_all (p : Char → Bool) (xs ys : List Char)
    (h : ∀ x ∈ xs, p x = true) :
    (xs ++ ys).takeWhile p = xs ++ ys.takeWhile p := by
  induction xs with
  | nil => simp
  | cons c cs ih =>
    have hc := h c (by simp)
    have hcs := ih fun x hx => h x (by simp [hx])
    simp [List.takeWhile_cons, hc, hcs]

theorem dropWhile_append_of_all (p : Char → Bool) (xs ys : List Char)
    (h : ∀ x ∈ xs, p x = true) :
    (xs ++ ys).dropWhile p = ys.dropWhile p := by
  induction xs with
  | nil => simp
  | cons c cs ih =>
    have hc := h c (by simp)
    have hcs := ih fun x hx => h x (by simp [hx])
    simp [List.dropWhile_cons, hc, hcs]

theorem dropWhile_eq_self_of_takeWhile_nil (p : Char → Bool) (ys : List Char)
    (h : ys.takeWhile p = []) : ys.dropWhile p = ys := by
  cases ys with
  | nil => rfl
  | cons c cs =>
    rw [List.takeWhile_cons] at h
    rw [List.dropWhile_cons]
    by_cases hp : p c = true
    · simp [hp] at h
    · simp [hp]

/-- Scanning `%d` into a `uint<bits>` argument from the decimal
representation of `m` followed by non-digit input consumes exactly the
digits and yields `m`. -/
theorem parseGoUint_natToDec (bits m : Nat) (rest : List Char)
    (hm : m < 2 ^ bits) (hrest : rest.takeWhile Char.isDigit = []) :
    parseGoUint bits (natToDec m ++ rest) = some (m, rest) := by
  obtain ⟨c, cs, hcons⟩ : ∃ c cs, natToDec m = c :: cs := by
    cases h : natToDec m with
    | nil => exact absurd h (natToDec_ne_nil m)
    | cons c cs => exact ⟨c, cs, rfl⟩
  have hdigits := natToDec_digits m
  unfold parseGoUint
  rw [hcons, List.cons_append,
    scanSkipSpace_digit c _ (hdigits c (by rw [hcons]; simp)), Option.some_bind]
  rw [← List.cons_append, ← hcons,
    takeWhile_append_of_all _ _ _ hdigits, hrest,
    dropWhile_append_of_all _ _ _ hdigits,
    dropWhile_eq_self_of_takeWhile_nil _ _ hrest, List.append_nil,
    decValue_natToDec]
  rw [if_neg (by simp [natToDec_ne_nil m]), if_pos hm]

/-! ### The hash codec and the top-level operations -/

/-- The body of the Go `decodeHash` after the `vals :=
strings.Split(encodedHash, "$")` binding: check the field count, the
algorithm tag, the version, the parameter block, the zero-parameter
guard, then base64-decode salt and key, rejecting empty results; the
returned `params` carries the decoded byte lengths. -/
def decodeFields (vals : List (List Char)) :
    Except DecodeError (params × List Nat × List Nat) :=
  if vals.length ≠ 6 then .error .badFieldCount
  else if vals.getD 1 [] ≠ "argon2id".toList then .error .unsupportedAlgorithm
  else
    match parseVersionField (vals.getD 2 []) with
    | none => .error .versionParseFailed
    | some v =>
      if v ≠ (argon2Version : Int) then .error .versionMismatch
      else
        match parseParamsField (vals.getD 3 []) with
        | none => .error .paramsParseFailed
        | some (m, t, par) =>
          if m = 0 ∨ t = 0 ∨ par = 0 then .error .zeroParameter
          else
            match b64DecodeChars (vals.getD 4 []) with
            | none => .error .saltDecodeFailed
            | some salt =>
              if salt = [] then .error .emptySalt
              else
                match b64DecodeChars (vals.getD 5 []) with
                | none => .error .hashDecodeFailed
                | some hash =>
                  if hash = [] then .error .emptyHash
                  else .ok (⟨m, t, par, salt.length, hash.length⟩, salt, hash)

/-- The Go `decodeHash`: split the encoded hash on `$` and process the
fields. -/
def decodeHash (encodedHash : List Char) :
    Except DecodeError (params × List Nat × List Nat) :=
  decodeFields (goSplit '$' encodedHash)

/-- The `fmt.Sprintf("$argon2id$v=%d$m=%d,t=%d,p=%d$%s$%s", ...)` step
of `generateFromPassword`: the encoded-hash string built from the
parameters, the base64 salt and the base64 derived key. -/
def encodeHashString (p : params) (salt hash : List Nat) : List Char :=
  "$argon2id$v=".toList ++ natToDec argon2Version ++ "$m=".toList ++
  natToDec p.memory ++ ",t=".toList ++ natToDec p.iterations ++
  ",p=".toList ++ natToDec p.parallelism ++
  "$".toList ++ b64EncodeBytes salt ++ "$".toList ++ b64EncodeBytes hash

/-- Type of the external `argon2.IDKey` function: arguments are
password, salt, iterations (time), memory, parallelism (threads) and
requested key length; the result is the derived key. The function is
external to this repository, so programs below are parameterised by
it. -/
def IDKeyFun : Type :=
  List Char → List Nat → Nat → Nat → Nat → Nat → List Nat

/-- The contract of `argon2.IDKey` used here: it produces exactly the
requested number of bytes, each a byte value. -/
def IDKeyContract (idKey : IDKeyFun) : Prop :=
  ∀ pw salt t m par kl,
    (idKey pw salt t m par kl).length = kl ∧
    ∀ b ∈ idKey pw salt t m par kl, b < 256

/-- The Go `generateFromPassword`: validate the password, then derive
the key and encode. The salt produced by `generateRandomBytes`
(`crypto/rand`) is passed in as an argument; the claims all condition
on the random source succeeding. -/
def generateFromPassword (u : GoUnicode) (idKey : IDKeyFun)
    (password : List Char) (p : params) (salt : List Nat) :
    Except PasswordError (List Char) :=
  match validatePassword u password with
  | some e => .error e
  | none =>
    .ok (encodeHashString p salt
      (idKey password salt p.iterations p.memory p.parallelism p.keyLength))

/-- The Go `hashPassword`: `generateFromPassword` with
`defaultParams`. -/
def hashPassword (u : GoUnicode) (idKey : IDKeyFun) (password : List Char)
    (salt : List Nat) : Except PasswordError (List Char) :=
  generateFromPassword u idKey password defaultParams salt

/-- The Go `comparePasswordAndHash`: validate the candidate password,
decode the stored hash, re-derive with the decoded parameters and salt,
and compare in constant time. Returns the Go `(match, err)` pair. -/
def comparePasswordAndHash (u : GoUnicode) (idKey : IDKeyFun)
    (password encodedHash : List Char) : Bool × Option CompareError :=
  match validatePassword u password with
  | some e => (false, some (.policy e))
  | none =>
    match decodeHash encodedHash with
    | .error e => (false, some (.decode e))
    | .ok (p, salt, hash) =>
      let otherHash :=
        idKey password salt p.iterations p.memory p.parallelism p.keyLength
      if constantTimeCompare hash otherHash = 1 then (true, none)
      else (false, none)

/-! ### Decode–encode round trip -/

theorem isDigit_ne_dollar (c : Char) (h : c.isDigit = true) : c ≠ '$' := by
  intro hc
  subst hc
  exact absurd h (by decide)

theorem dollar_not_mem_natToDec (n : Nat) : '$' ∉ natToDec n :=
  fun h => isDigit_ne_dollar _ (natToDec_digits n _ h) rfl

theorem dollar_not_mem_b64 (bs : List Nat) (h : ∀ b ∈ bs, b < 256) :
    '$' ∉ b64EncodeBytes bs := by
  intro hm
  obtain ⟨n, hn, he⟩ := b64EncodeBytes_mem bs h '$' hm
  exact b64Char_ne_dollar n hn he.symm

theorem encodeHashString_shape (p : params) (salt hash : List Nat) :
    encodeHashString p salt hash =
      '$' :: ("argon2id".toList ++ '$' ::
        (('v' :: '=' :: natToDec argon2Version) ++ '$' ::
          (('m' :: '=' :: (natToDec p.memory ++ ',' :: 't' :: '=' ::
            (natToDec p.iterations ++ ',' :: 'p' :: '=' ::
              natToDec p.parallelism))) ++ '$' ::
            (b64EncodeBytes salt ++ '$' :: b64EncodeBytes hash)))) := by
  simp [encodeHashString, List.append_assoc]

theorem goSplit_encodeHashString (p : params) (salt hash : List Nat)
    (hsb : ∀ b ∈ salt, b < 256) (hhb : ∀ b ∈ hash, b < 256) :
    goSplit '$' (encodeHashString p salt hash) =
      [[], "argon2id".toList,
       'v' :: '=' :: natToDec argon2Version,
       'm' :: '=' :: (natToDec p.memory ++ ',' :: 't' :: '=' ::
         (natToDec p.iterations ++ ',' :: 'p' :: '=' ::
           natToDec p.parallelism)),
       b64EncodeBytes salt, b64EncodeBytes hash] := by
  have hF2 : '$' ∉ 'v' :: '=' :: natToDec argon2Version := by
    intro h
    simp only [List.mem_cons] at h
    rcases h with h | h | h
    · exact absurd h (by decide)
    · exact absurd h (by decide)
    · exact dollar_not_mem_natToDec _ h
  have hF3 : '$' ∉ 'm' :: '=' :: (natToDec p.memory ++ ',' :: 't' :: '=' ::
      (natToDec p.iterations ++ ',' :: 'p' :: '=' ::
        natToDec p.parallelism)) := by
    intro h
    simp only [List.mem_cons, List.mem_append] at h
    rcases h with h | h | h | h | h | h | h | h | h | h | h
    all_goals first
      | exact absurd h (by decide)
      | exact dollar_not_mem_natToDec _ h
  rw [encodeHashString_shape, goSplit_cons_sep,
    goSplit_append_sep _ _ _ (by decide),
    goSplit_append_sep _ _ _ hF2,
    goSplit_append_sep _ _ _ hF3,
    goSplit_append_sep _ _ _ (dollar_not_mem_b64 salt hsb),
    goSplit_no_sep _ _ (dollar_not_mem_b64 hash hhb)]

theorem takeWhile_comma_nil (xs : List Char) :
    (',' :: xs).takeWhile Char.isDigit = [] := by
  rw [List.takeWhile_cons, if_neg (by decide)]

theorem parseGoUint_natToDec_nil (bits m : Nat) (hm : m < 2 ^ bits) :
    parseGoUint bits (natToDec m) = some (m, []) := by
  have h := parseGoUint_natToDec bits m [] hm (by simp)
  simpa using h

/-- Scanning the parameter block written by the encoder recovers the
three numbers. -/
theorem parseParamsField_natToDec (m t par : Nat)
    (hm : m < 2 ^ 32) (ht : t < 2 ^ 32) (hp : par < 2 ^ 8) :
    parseParamsField ('m' :: '=' :: (natToDec m ++ ',' :: 't' :: '=' ::
      (natToDec t ++ ',' :: 'p' :: '=' :: natToDec par))) =
      some (m, t, par) := by
  simp only [parseParamsField]
  rw [parseGoUint_natToDec 32 m _ hm (takeWhile_comma_nil _)]
  simp only [Option.some_bind]
  rw [parseGoUint_natToDec 32 t _ ht (takeWhile_comma_nil _)]
  simp only [Option.some_bind]
  rw [parseGoUint_natToDec_nil 8 par hp]
  simp

/-- Main codec round trip: decoding the encoder's output succeeds and
returns the written memory/iterations/parallelism, the salt and the
key byte-for-byte, with the length fields set to the decoded byte
lengths. -/
theorem decodeHash_encodeHashString (p : params) (salt hash : List Nat)
    (hm0 : 0 < p.memory) (hm32 : p.memory < 2 ^ 32)
    (ht0 : 0 < p.iterations) (ht32 : p.iterations < 2 ^ 32)
    (hp0 : 0 < p.parallelism) (hp8 : p.parallelism < 2 ^ 8)
    (hsne : salt ≠ []) (hhne : hash ≠ [])
    (hsb : ∀ b ∈ salt, b < 256) (hhb : ∀ b ∈ hash, b < 256) :
    decodeHash (encodeHashString p salt hash) =
      .ok (⟨p.memory, p.iterations, p.parallelism,
            salt.length, hash.length⟩, salt, hash) := by
  unfold decodeHash
  rw [goSplit_encodeHashString p salt hash hsb hhb]
  unfold decodeFields
  have hver : parseVersionField ('v' :: '=' :: natToDec argon2Version) =
      some (argon2Version : Int) := by decide
  simp only [List.length_cons, List.length_nil,
    List.getD_cons_zero, List.getD_cons_succ, hver,
    parseParamsField_natToDec p.memory p.iterations p.parallelism hm32 ht32 hp8,
    b64_decode_encode salt hsb, b64_decode_encode hash hhb]
  rw [if_neg (by omega)]
  rw [if_neg (by decide)]
  rw [if_neg (by simp)]
  rw [if_neg (by omega)]
  rw [if_neg hsne, if_neg hhne]

/-! ### Validator lemmas -/

theorem classStep_fst (u : GoUnicode) (acc : Bool × Bool × Bool × Bool)
    (c : Char) : (classStep u acc c).1 = (acc.1 || u.isUpper c) := by
  obtain ⟨hu, hl, hd, hs⟩ := acc
  unfold classStep
  by_cases h1 : u.isUpper c = true
  · simp [h1]
  · simp only [Bool.not_eq_true] at h1
    simp only [h1, Bool.false_eq_true, if_false, Bool.or_false]
    by_cases h2 : u.isLower c = true
    · simp [h2]
    · simp only [Bool.not_eq_true] at h2
      simp only [h2, Bool.false_eq_true, if_false]
      by_cases h3 : u.isDigit c = true
      · simp [h3]
      · simp only [Bool.not_eq_true] at h3
        simp only [h3, Bool.false_eq_true, if_false]
        by_cases h4 : (u.isPunct c || u.isSymbol c) = true
        · simp [h4]
        · simp only [Bool.not_eq_true] at h4
          simp [h4]

theorem foldl_classStep_fst (u : GoUnicode) (pw : List Char)
    (acc : Bool × Bool × Bool × Bool) :
    (pw.foldl (classStep u) acc).1 = (acc.1 || pw.any u.isUpper) := by
  induction pw generalizing acc with
  | nil => simp
  | cons c cs ih =>
    rw [List.foldl_cons, ih, classStep_fst]
    simp [Bool.or_assoc]

/-- C7 — `validatePassword` checks its rules in order and returns the
first violation: an over-long password is rejected as `tooLong` no
matter what classes it misses, and an in-bounds password with no
uppercase character (and no digit) is rejected as `noUpper`, not as
`noDigit` or an aggregate. -/
theorem validate_first_violation_order (u : GoUnicode) (pw : List Char) :
    (utf8Len pw > maxPasswordLength → validatePassword u pw = some .tooLong) ∧
    (minPasswordLength ≤ utf8Len pw → utf8Len pw ≤ maxPasswordLength →
      (∀ c ∈ pw, u.isUpper c = false) → (∀ c ∈ pw, u.isDigit c = false) →
      validatePassword u pw = some .noUpper) := by
  constructor
  · intro h
    unfold validatePassword
    rw [if_pos h]
  · intro h1 h2 hup _hdig
    unfold validatePassword
    rw [if_neg (by omega), if_neg (by omega)]
    have hany : pw.any u.isUpper = false := by
      rw [List.any_eq_false]
      intro c hc
      simp [hup c hc]
    simp only [foldl_classStep_fst, Bool.false_or, hany]
    rfl

/-- C7 witness. -/
theorem validate_first_violation_order_witness :
    validatePassword goUnicodeTable (List.replicate 73 'a') = some .tooLong ∧
    validatePassword goUnicodeTable "testp@ss".toList = some .noUpper :=
  ⟨(validate_first_violation_order goUnicodeTable _).1 (by decide),
   (validate_first_violation_order goUnicodeTable _).2
     (by decide) (by decide) (by decide) (by decide)⟩

/-- C8 counterexample — a password of 37 characters (all Cyrillic, two
UTF-8 bytes each) is within the claimed 8–72 character window, yet
`validatePassword` rejects it as `tooLong`, because the Go code
measures `len(password)` in bytes (74 here), not characters. -/
theorem validate_char_count_counterexample :
    (List.replicate 37 'ж').length = 37 ∧ 8 ≤ 37 ∧ 37 ≤ 72 ∧
    validatePassword goUnicodeTable (List.replicate 37 'ж') =
      some .tooLong := by
  refine ⟨by decide, by omega, by omega, by decide⟩

/-- C8 amended — `validatePassword` measures length in UTF-8 bytes:
over 72 bytes is `tooLong`, under 8 bytes is `tooShort`, and a password
of 8 to 72 bytes is never rejected for its length. -/
theorem validate_length_bytes (u : GoUnicode) (pw : List Char) :
    (utf8Len pw > maxPasswordLength → validatePassword u pw = some .tooLong) ∧
    (utf8Len pw ≤ maxPasswordLength → utf8Len pw < minPasswordLength →
      validatePassword u pw = some .tooShort) ∧
    (minPasswordLength ≤ utf8Len pw → utf8Len pw ≤ maxPasswordLength →
      validatePassword u pw ≠ some .tooLong ∧
      validatePassword u pw ≠ some .tooShort) := by
  refine ⟨?_, ?_, ?_⟩
  · intro h
    unfold validatePassword
    rw [if_pos h]
  · intro h1 h2
    unfold validatePassword
    rw [if_neg (by omega), if_pos h2]
  · intro h1 h2
    unfold validatePassword
    rw [if_neg (by omega), if_neg (by omega)]
    rcases List.foldl (classStep u) (false, false, false, false) pw
      with ⟨a, b, c, d⟩
    cases a <;> cases b <;> cases c <;> cases d <;> simp

/-- C8 amended witness. -/
theorem validate_length_bytes_witness :
    validatePassword goUnicodeTable (List.replicate 73 'b') = some .tooLong ∧
    validatePassword goUnicodeTable "abc".toList = some .tooShort ∧
    (validatePassword goUnicodeTable "TestP@1s".toList ≠ some .tooLong ∧
     validatePassword goUnicodeTable "TestP@1s".toList ≠ some .tooShort) :=
  ⟨(validate_length_bytes goUnicodeTable _).1 (by decide),
   (validate_length_bytes goUnicodeTable _).2.1 (by decide) (by decide),
   (validate_length_bytes goUnicodeTable _).2.2 (by decide) (by decide)⟩

/-! ### Verifier claims -/

/-- C3 — a candidate that fails policy validation is rejected with that
policy error for every stored string whatsoever: the stored hash is
never decoded or compared, and the result is never a match nor a decode
error. -/
theorem policy_invalid_rejected_first (u : GoUnicode) (idKey : IDKeyFun)
    (pw h : List Char) (e : PasswordError)
    (hval : validatePassword u pw = some e) :
    comparePasswordAndHash u idKey pw h = (false, some (.policy e)) := by
  unfold comparePasswordAndHash
  rw [hval]

/-- C3 witness — the stored hash is well formed and its key is exactly
what the candidate would derive to, yet the policy-invalid candidate is
rejected with the policy error. -/
theorem policy_invalid_rejected_first_witness :
    comparePasswordAndHash goUnicodeTable
      (fun _ _ _ _ _ _ => [104, 97, 115, 104]) "short".toList
      "$argon2id$v=19$m=65536,t=3,p=2$c2FsdA$aGFzaA".toList =
      (false, some (.policy .tooShort)) :=
  policy_invalid_rejected_first goUnicodeTable _ _ _ .tooShort (by decide)

/-- C1 — codec round trip: for every parameter record with nonzero
memory, iterations and parallelism (within their Go integer types) and
every non-empty salt and key byte sequence, decoding the string
produced by the encoding step of `generateFromPassword` succeeds and
returns the same memory, iterations and parallelism, the salt and key
byte-for-byte, and length fields equal to the decoded byte lengths. -/
theorem codec_round_trip (p : params) (salt key : List Nat)
    (hm0 : 0 < p.memory) (hm32 : p.memory < 2 ^ 32)
    (ht0 : 0 < p.iterations) (ht32 : p.iterations < 2 ^ 32)
    (hp0 : 0 < p.parallelism) (hp8 : p.parallelism < 2 ^ 8)
    (hsne : salt ≠ []) (hkne : key ≠ [])
    (hsb : ∀ b ∈ salt, b < 256) (hkb : ∀ b ∈ key, b < 256) :
    decodeHash (encodeHashString p salt key) =
      .ok (⟨p.memory, p.iterations, p.parallelism, salt.length, key.length⟩,
        salt, key) :=
  decodeHash_encodeHashString p salt key hm0 hm32 ht0 ht32 hp0 hp8
    hsne hkne hsb hkb

/-- C1 witness. -/
theorem codec_round_trip_witness :
    decodeHash (encodeHashString ⟨65536, 3, 2, 16, 32⟩ [1, 2] [3, 4, 5]) =
      .ok (⟨65536, 3, 2, 2, 3⟩, [1, 2], [3, 4, 5]) :=
  codec_round_trip ⟨65536, 3, 2, 16, 32⟩ [1, 2] [3, 4, 5]
    (by norm_num) (by norm_num) (by norm_num) (by norm_num) (by norm_num)
    (by norm_num) (by decide) (by decide) (by decide) (by decide)

/-- Every successful `decodeFields` result carries the decoded byte
lengths in its `saltLength` and `keyLength` fields. -/
theorem decodeFields_ok_lengths (vals : List (List Char)) (p : params)
    (salt hash : List Nat) (h : decodeFields vals = .ok (p, salt, hash)) :
    p.saltLength = salt.length ∧ p.keyLength = hash.length := by
  unfold decodeFields at h
  repeat' split at h
  all_goals first
    | (simp only [Except.ok.injEq, Prod.mk.injEq] at h
       obtain ⟨hp, hs2, hh2⟩ := h
       subst hs2
       subst hh2
       rw [← hp]
       exact ⟨rfl, rfl⟩)
    | simp_all

/-- C9 — after a successful decode, the stored `keyLength` is the
stored key's byte length, and (by the `argon2.IDKey` output-length
contract) the freshly derived key used by `comparePasswordAndHash` has
exactly the stored key's byte length, so the constant-time comparison
always compares equal-length sequences. -/
theorem derived_key_length_matches_stored (idKey : IDKeyFun)
    (hc : IDKeyContract idKey) (password h : List Char) (p : params)
    (salt hash : List Nat) (hdec : decodeHash h = .ok (p, salt, hash)) :
    p.keyLength = hash.length ∧
    (idKey password salt p.iterations p.memory p.parallelism
      p.keyLength).length = hash.length := by
  have hlen := (decodeFields_ok_lengths (goSplit '$' h) p salt hash hdec).2
  refine ⟨hlen, ?_⟩
  rw [(hc password salt p.iterations p.memory p.parallelism p.keyLength).1]
  exact hlen

/-- C9 witness. -/
theorem derived_key_length_matches_stored_witness :
    (⟨65536, 3, 2, 4, 4⟩ : params).keyLength = 4 ∧
    ((fun _ _ _ _ _ kl => List.replicate kl 0 : IDKeyFun) "pw".toList
      [115, 97, 108, 116] 3 65536 2 4).length = 4 := by
  have h := derived_key_length_matches_stored
    (fun _ _ _ _ _ kl => List.replicate kl 0)
    (by
      intro pw salt t m par kl
      refine ⟨by simp, ?_⟩
      intro b hb
      have := List.eq_of_mem_replicate hb
      omega)
    "pw".toList "$argon2id$v=19$m=65536,t=3,p=2$c2FsdA$aGFzaA".toList
    ⟨65536, 3, 2, 4, 4⟩ [115, 97, 108, 116] [104, 97, 115, 104] (by decide)
  exact h

/-- C4 — error discipline of `comparePasswordAndHash` for a
policy-valid candidate: a decode failure surfaces as a non-nil wrapped
`DecodeError` (never a silent no-match), and a successful decode always
yields a nil error, returning `true` exactly when the freshly derived
key equals the stored key byte-for-byte and `false` otherwise. -/
theorem compare_error_discipline (u : GoUnicode) (idKey : IDKeyFun)
    (pw h : List Char) (hval : validatePassword u pw = none) :
    (∀ e, decodeHash h = .error e →
      comparePasswordAndHash u idKey pw h = (false, some (.decode e))) ∧
    (∀ p salt hash, decodeHash h = .ok (p, salt, hash) →
      comparePasswordAndHash u idKey pw h =
        (decide (hash = idKey pw salt p.iterations p.memory p.parallelism
          p.keyLength), none)) := by
  constructor
  · intro e hdec
    simp [comparePasswordAndHash, hval, hdec]
  · intro p salt hash hdec
    simp only [comparePasswordAndHash, hval, hdec]
    by_cases he : hash = idKey pw salt p.iterations p.memory p.parallelism
        p.keyLength
    · rw [if_pos ((constantTimeCompare_eq_one_iff _ _).mpr he)]
      simp [he]
    · rw [if_neg (fun hcontra =>
        he ((constantTimeCompare_eq_one_iff _ _).mp hcontra))]
      simp [he]

/-- C4 witness — a policy-valid candidate against a well-formed stored
hash whose key does not match: the result is `(false, nil)`. -/
theorem compare_error_discipline_witness :
    comparePasswordAndHash goUnicodeTable
      (fun _ _ _ _ _ kl => List.replicate kl 0) "TestP@1s".toList
      "$argon2id$v=19$m=65536,t=3,p=2$c2FsdA$aGFzaA".toList =
      (false, none) := by
  have h := (compare_error_discipline goUnicodeTable
    (fun _ _ _ _ _ kl => List.replicate kl 0) "TestP@1s".toList
    "$argon2id$v=19$m=65536,t=3,p=2$c2FsdA$aGFzaA".toList (by decide)).2
    ⟨65536, 3, 2, 4, 4⟩ [115, 97, 108, 116] [104, 97, 115, 104] (by decide)
  rw [h]
  decide

/-- C2 — verification of a fresh hash: for every policy-valid password,
if the random source succeeds (supplying a salt of the default profile's
length) and `hashPassword` returns an encoded hash, then
`comparePasswordAndHash` of the same password against that hash returns
`(true, nil)`. -/
theorem verify_of_hashPassword (u : GoUnicode) (idKey : IDKeyFun)
    (hc : IDKeyContract idKey) (password encoded : List Char)
    (salt : List Nat)
    (hval : validatePassword u password = none)
    (hsaltLen : salt.length = defaultParams.saltLength)
    (hsb : ∀ b ∈ salt, b < 256)
    (hh : hashPassword u idKey password salt = .ok encoded) :
    comparePasswordAndHash u idKey password encoded = (true, none) := by
  have hkeyc := hc password salt defaultParams.iterations defaultParams.memory
    defaultParams.parallelism defaultParams.keyLength
  unfold hashPassword generateFromPassword at hh
  rw [hval] at hh
  simp only [Except.ok.injEq] at hh
  subst hh
  have hsne : salt ≠ [] := by
    intro h0
    rw [h0] at hsaltLen
    simp [defaultParams] at hsaltLen
  have hkne : idKey password salt defaultParams.iterations defaultParams.memory
      defaultParams.parallelism defaultParams.keyLength ≠ [] := by
    intro h0
    have hl := hkeyc.1
    rw [h0] at hl
    simp [defaultParams] at hl
  have hdec := decodeHash_encodeHashString defaultParams salt
    (idKey password salt defaultParams.iterations defaultParams.memory
      defaultParams.parallelism defaultParams.keyLength)
    (by norm_num [defaultParams]) (by norm_num [defaultParams])
    (by norm_num [defaultParams]) (by norm_num [defaultParams])
    (by norm_num [defaultParams]) (by norm_num [defaultParams])
    hsne hkne hsb hkeyc.2
  simp only [comparePasswordAndHash, hval, hdec]
  rw [hkeyc.1]
  rw [if_pos ((constantTimeCompare_eq_one_iff _ _).mpr rfl)]

/-- C2 witness. -/
theorem verify_of_hashPassword_witness :
    comparePasswordAndHash goUnicodeTable
      (fun _ _ _ _ _ kl => List.replicate kl 1) "TestP@1s".toList
      (encodeHashString defaultParams (List.replicate 16 0)
        (List.replicate 32 1)) = (true, none) := by
  have h := verify_of_hashPassword goUnicodeTable
    (fun _ _ _ _ _ kl => List.replicate kl 1)
    (by
      intro pw salt t m par kl
      refine ⟨by simp, ?_⟩
      intro b hb
      have := List.eq_of_mem_replicate hb
      omega)
    "TestP@1s".toList
    (encodeHashString defaultParams (List.replicate 16 0)
      (List.replicate 32 1))
    (List.replicate 16 0) (by decide) (by decide) (by decide) rfl
  exact h

/-- C5 — decode failure coverage: the three literal inputs fail with the
zero-parameter, unsupported-algorithm and version-mismatch errors, and
every string splitting into exactly five `$`-fields fails with the
bad-field-count error. -/
theorem decode_failure_coverage :
    decodeHash "$argon2id$v=19$m=0,t=3,p=2$c2FsdA$aGFzaA".toList =
      .error .zeroParameter ∧
    decodeHash "$argon2i$v=19$m=65536,t=3,p=2$c2FsdA$aGFzaA".toList =
      .error .unsupportedAlgorithm ∧
    decodeHash "$argon2id$v=18$m=65536,t=3,p=2$c2FsdA$aGFzaA".toList =
      .error .versionMismatch ∧
    ∀ s : List Char, (goSplit '$' s).length = 5 →
      decodeHash s = .error .badFieldCount := by
  refine ⟨by decide, by decide, by decide, ?_⟩
  intro s h5
  unfold decodeHash decodeFields
  rw [if_pos (by omega)]

/-- C5 witness. -/
theorem decode_failure_coverage_witness :
    decodeHash "a$b$c$d$e".toList = .error .badFieldCount :=
  decode_failure_coverage.2.2.2 "a$b$c$d$e".toList (by decide)

/-- The encoded string for the default profile, with the numeric fields
written out. -/
theorem encodeHashString_default (salt key : List Nat) :
    encodeHashString defaultParams salt key =
      "$argon2id$v=19$m=65536,t=3,p=2$".toList ++
        (b64EncodeBytes salt ++ '$' :: b64EncodeBytes key) := by
  have h19 : natToDec argon2Version = ['1', '9'] := by decide
  have hm : natToDec defaultParams.memory = ['6', '5', '5', '3', '6'] := by
    decide
  have ht : natToDec defaultParams.iterations = ['3'] := by decide
  have hp : natToDec defaultParams.parallelism = ['2'] := by decide
  simp [encodeHashString, h19, hm, ht, hp]

/-- C6 — canonical form of `hashPassword` output: with the default
profile the encoded hash is exactly
`$argon2id$v=19$m=65536,t=3,p=2$<salt-b64>$<key-b64>`, the derived key
has 32 bytes, and the string splits on `$` into six fields whose first
is empty. -/
theorem hashPassword_canonical_form (u : GoUnicode) (idKey : IDKeyFun)
    (hc : IDKeyContract idKey) (password : List Char) (salt : List Nat)
    (hval : validatePassword u password = none)
    (_hsaltLen : salt.length = 16) (hsb : ∀ b ∈ salt, b < 256) :
    hashPassword u idKey password salt =
      .ok ("$argon2id$v=19$m=65536,t=3,p=2$".toList ++
        (b64EncodeBytes salt ++ '$' :: b64EncodeBytes
          (idKey password salt 3 65536 2 32))) ∧
    (idKey password salt 3 65536 2 32).length = 32 ∧
    goSplit '$' ("$argon2id$v=19$m=65536,t=3,p=2$".toList ++
        (b64EncodeBytes salt ++ '$' :: b64EncodeBytes
          (idKey password salt 3 65536 2 32))) =
      [[], "argon2id".toList, "v=19".toList, "m=65536,t=3,p=2".toList,
       b64EncodeBytes salt, b64EncodeBytes (idKey password salt 3 65536 2 32)]
    := by
  have hkb := (hc password salt 3 65536 2 32).2
  refine ⟨?_, (hc password salt 3 65536 2 32).1, ?_⟩
  · unfold hashPassword generateFromPassword
    rw [hval]
    rw [encodeHashString_default]
    rfl
  · have h := goSplit_encodeHashString defaultParams salt
      (idKey password salt 3 65536 2 32) hsb hkb
    rw [encodeHashString_default] at h
    rw [show 'v' :: '=' :: natToDec argon2Version = "v=19".toList from
      by decide] at h
    rw [show 'm' :: '=' :: (natToDec defaultParams.memory ++ ',' :: 't' ::
      '=' :: (natToDec defaultParams.iterations ++ ',' :: 'p' :: '=' ::
        natToDec defaultParams.parallelism)) = "m=65536,t=3,p=2".toList from
      by decide] at h
    exact h

/-- C6 witness. -/
theorem hashPassword_canonical_form_witness :
    hashPassword goUnicodeTable (fun _ _ _ _ _ kl => List.replicate kl 1)
      "TestP@1s".toList (List.replicate 16 0) =
      .ok ("$argon2id$v=19$m=65536,t=3,p=2$".toList ++
        (b64EncodeBytes (List.replicate 16 0) ++ '$' ::
          b64EncodeBytes (List.replicate 32 1))) :=
  (hashPassword_canonical_form goUnicodeTable
    (fun _ _ _ _ _ kl => List.replicate kl 1)
    (by
      intro pw salt t m par kl
      refine ⟨by simp, ?_⟩
      intro b hb
      have := List.eq_of_mem_replicate hb
      omega)
    "TestP@1s".toList (List.replicate 16 0)
    (by decide) (by decide) (by decide)).1

theorem length_six_shape (l : List (List Char)) (h : l.length = 6) :
    ∃ a b c d e f, l = [a, b, c, d, e, f] := by
  rcases l with _ | ⟨a, l⟩; · simp at h
  rcases l with _ | ⟨b, l⟩; · simp at h
  rcases l with _ | ⟨c, l⟩; · simp at h
  rcases l with _ | ⟨d, l⟩; · simp at h
  rcases l with _ | ⟨e, l⟩; · simp at h
  rcases l with _ | ⟨f, l⟩; · simp at h
  rcases l with _ | ⟨g, l⟩
  · exact ⟨a, b, c, d, e, f, rfl⟩
  · simp at h

/-- The decoder never inspects the first `$`-field. -/
theorem decodeFields_head_irrelevant (v0 w0 v1 v2 v3 v4 v5 : List Char) :
    decodeFields [v0, v1, v2, v3, v4, v5] =
      decodeFields [w0, v1, v2, v3, v4, v5] := rfl

/-- C10 — acceptance depends only on fields 1 through 5: replacing the
leading field of a successfully decoding string with any `$`-free text
still decodes to the identical parameters, salt and key. -/
theorem decode_ignores_leading_field (s head : List Char)
    (r : params × List Nat × List Nat)
    (hdec : decodeHash s = .ok r) (hhead : '$' ∉ head) :
    decodeHash (List.intercalate ['$'] (head :: (goSplit '$' s).tail)) =
      .ok r := by
  have h6 : (goSplit '$' s).length = 6 := by
    by_contra hne
    unfold decodeHash decodeFields at hdec
    rw [if_pos hne] at hdec
    exact absurd hdec (by simp)
  obtain ⟨a, b, c, d, e, f, hsplit⟩ := length_six_shape _ h6
  unfold decodeHash
  rw [hsplit]
  simp only [List.tail_cons]
  have hfree : ∀ fl ∈ head :: [b, c, d, e, f], '$' ∉ fl := by
    intro fl hfl
    rcases List.mem_cons.mp hfl with rfl | hfl
    · exact hhead
    · exact goSplit_not_mem '$' s fl (hsplit ▸ List.mem_cons_of_mem a hfl)
  rw [goSplit_intercalate '$' _ hfree (by simp)]
  rw [decodeFields_head_irrelevant head a b c d e f]
  unfold decodeHash at hdec
  rw [hsplit] at hdec
  exact hdec

/-- C10 witness — the claim's example string, whose leading field is
`x` instead of being empty (so the string lacks the leading `$`). -/
theorem decode_ignores_leading_field_witness :
    decodeHash "x$argon2id$v=19$m=65536,t=3,p=2$c2FsdA$aGFzaA".toList =
      .ok (⟨65536, 3, 2, 4, 4⟩, [115, 97, 108, 116], [104, 97, 115, 104]) := by
  have h := decode_ignores_leading_field
    "$argon2id$v=19$m=65536,t=3,p=2$c2FsdA$aGFzaA".toList "x".toList
    (⟨65536, 3, 2, 4, 4⟩, [115, 97, 108, 116], [104, 97, 115, 104])
    (by decide) (by decide)
  rw [show List.intercalate ['$'] ("x".toList ::
      (goSplit '$' "$argon2id$v=19$m=65536,t=3,p=2$c2FsdA$aGFzaA".toList).tail)
      = "x$argon2id$v=19$m=65536,t=3,p=2$c2FsdA$aGFzaA".toList from
    by decide] at h
  exact h

end LuxCarpets
